import Mathlib

/-!
Verification of the Clifford-steerable CNN kernel core
(`modules/conv/ckernel.py`, `modules/conv/shell.py`).

Tensors of the array library are modelled in two complementary ways, both
translated from the source:

* `JTensor`, a shape (list of dimension sizes) together with the flat
  row-major data buffer.  A `jnp.reshape` is a pure reinterpretation of the
  buffer under a new shape and raises (modelled as `none`) when the element
  counts disagree.  This level carries the reshape round-trip and the
  shape-error claims.

* typed index functions `Fin a → Fin b → ... → ℝ` for the rank-6 value-level
  semantics of `conv_kernel`, where the hard-coded transpose axes
  `(0, 2, 1, 3, 4, 5)` fix the rank.

Shape propagation of the jax operations (`reshape`, `transpose`, `vmap`,
`lax.conv` with `"SAME"` padding and stride 1) is modelled by
`conv_kernel_shape` below, following the documented XLA shape rules.
-/

/-- A jax array: a shape and the flat row-major data buffer. -/
structure JTensor where
  shape : List ℕ
  data : List ℝ

/-- `reshape_mv_tensor` from `ckernel.py`:
`A, B, *dims = tensor.shape; M = A // n_blades; N = B // n_blades;
tensor.reshape(M, n_blades, N, n_blades, *dims)`.
`jnp.reshape` keeps the flat buffer and fails (here `none`) when the new
shape does not have the same number of elements; unpacking `A, B, *dims`
fails when the rank is below 2. -/
def reshape_mv_tensor (n_blades : ℕ) (t : JTensor) : Option JTensor :=
  match t.shape with
  | A :: B :: dims =>
    let M := A / n_blades
    let N := B / n_blades
    let newShape := M :: n_blades :: N :: n_blades :: dims
    if newShape.prod = t.shape.prod then some ⟨newShape, t.data⟩ else none
  | _ => none

/-- `reshape_back` from `ckernel.py`:
`M, _, N, _, *dims = tensor.shape; A = M * n_blades; B = N * n_blades;
tensor.reshape(A, B, *dims)`. -/
def reshape_back (n_blades : ℕ) (t : JTensor) : Option JTensor :=
  match t.shape with
  | M :: _ :: N :: _ :: dims =>
    let newShape := (M * n_blades) :: (N * n_blades) :: dims
    if newShape.prod = t.shape.prod then some ⟨newShape, t.data⟩ else none
  | _ => none

/-- C2: Reshape round-trip.  For every tensor of shape `(A, B, *dims)` with
both `A` and `B` exact multiples of `n_blades`,
`reshape_back (reshape_mv_tensor t)` succeeds and returns `t` exactly
(same shape, same data buffer). -/
theorem reshape_roundtrip (n_blades : ℕ) (t : JTensor) (A B : ℕ) (dims : List ℕ)
    (hshape : t.shape = A :: B :: dims) (hA : n_blades ∣ A) (hB : n_blades ∣ B) :
    (reshape_mv_tensor n_blades t).bind (reshape_back n_blades) = some t := by
  have hA' : A / n_blades * n_blades = A := Nat.div_mul_cancel hA
  have hB' : B / n_blades * n_blades = B := Nat.div_mul_cancel hB
  have hprod : A / n_blades * (n_blades * (B / n_blades * (n_blades * dims.prod)))
      = A * (B * dims.prod) := by
    calc A / n_blades * (n_blades * (B / n_blades * (n_blades * dims.prod)))
        = (A / n_blades * n_blades) * ((B / n_blades * n_blades) * dims.prod) := by ring
      _ = A * (B * dims.prod) := by rw [hA', hB']
  obtain ⟨s, d⟩ := t
  simp only at hshape
  subst hshape
  simp only [reshape_mv_tensor, List.prod_cons, hprod, if_pos, Option.bind_some,
    Option.some_bind, reshape_back]
  rw [hA', hB']
  simp

/-- Witness for C2 at a concrete input: `n_blades = 2`,
tensor of shape `(2, 2)` with data `[1, 2, 3, 4]`. -/
theorem reshape_roundtrip_witness :
    (reshape_mv_tensor 2 ⟨[2, 2], [1, 2, 3, 4]⟩).bind (reshape_back 2)
      = some ⟨[2, 2], [1, 2, 3, 4]⟩ :=
  reshape_roundtrip 2 ⟨[2, 2], [1, 2, 3, 4]⟩ 2 2 [] rfl ⟨1, rfl⟩ ⟨1, rfl⟩

/-- Shape rule of `jnp.reshape`: the new shape must have the same number of
elements as the old one, otherwise the call raises. -/
def jreshape_shape (newShape s : List ℕ) : Option (List ℕ) :=
  if newShape.prod = s.prod then some newShape else none

/-- Shape rule of `reshape_mv_tensor` (`ckernel.py`): unpack
`A, B, *dims`, reshape to `(A // n_blades, n_blades, B // n_blades,
n_blades, *dims)`. -/
def reshape_mv_shape (n_blades : ℕ) (s : List ℕ) : Option (List ℕ) :=
  match s with
  | A :: B :: dims =>
    jreshape_shape (A / n_blades :: n_blades :: B / n_blades :: n_blades :: dims) s
  | _ => none

/-- Shape rule of `reshape_back` (`ckernel.py`): unpack `M, _, N, _, *dims`,
reshape to `(M * n_blades, N * n_blades, *dims)`. -/
def reshape_back_shape (n_blades : ℕ) (s : List ℕ) : Option (List ℕ) :=
  match s with
  | M :: _ :: N :: _ :: dims =>
    jreshape_shape ((M * n_blades) :: (N * n_blades) :: dims) s
  | _ => none

/-- Shape rule of `.transpose(0, 2, 1, 3, 4, 5)`: jax requires the
permutation to name every axis, so the array must have rank exactly 6;
axes 1 and 2 are swapped. -/
def jtranspose6_shape (s : List ℕ) : Option (List ℕ) :=
  match s with
  | [a, b, c, d, e, f] => some [a, c, b, d, e, f]
  | _ => none

/-- Shape rule of `jax.lax.conv(k1, k2, window_strides=(1,1),
padding="SAME")`: both operands must have rank 4 (`NCHW` input, `OIHW`
filter), the feature dimensions must agree, the window must be nonempty,
and `"SAME"` padding with stride 1 keeps the spatial size of the input. -/
def lax_conv_same_shape (lhs rhs : List ℕ) : Option (List ℕ) :=
  match lhs, rhs with
  | [n, c, h, w], [o, i, kh, kw] =>
    if c = i ∧ 1 ≤ kh ∧ 1 ≤ kw then some [n, o, h, w] else none
  | _, _ => none

/-- Shape rule of `jax.vmap(f, in_axes=(0, 0))`: both mapped axes must have
the same size, which is reattached in front of the result of `f` on the
remaining axes. -/
def jvmap0_shape (f : List ℕ → List ℕ → Option (List ℕ)) (s1 s2 : List ℕ) :
    Option (List ℕ) :=
  match s1, s2 with
  | a :: t1, b :: t2 => if a = b then (f t1 t2).map (fun r => a :: r) else none
  | _, _ => none

/-- Shape propagation of `conv_kernel` (`ckernel.py`), line for line:
reshape and transpose both kernels, doubly-vmapped `lax.conv`, transpose
back, reshape back.  `none` models the call raising. -/
def conv_kernel_shape (n_blades : ℕ) (s1 s2 : List ℕ) : Option (List ℕ) :=
  (reshape_mv_shape n_blades s1).bind fun r1 =>
  (jtranspose6_shape r1).bind fun t1 =>
  (reshape_mv_shape n_blades s2).bind fun r2 =>
  (jtranspose6_shape r2).bind fun t2 =>
  (jvmap0_shape (jvmap0_shape lax_conv_same_shape) t1 t2).bind fun kk =>
  (jtranspose6_shape kk).bind fun kt =>
  reshape_back_shape n_blades kt

/-- C3: Composed-kernel shape.  For kernels of shape
`(c_out * n_blades, c_in * n_blades, k, k)` with `n_blades ≥ 1` and
`k ≥ 1`, `conv_kernel` returns a tensor of exactly the same shape: the
spatial kernel size `k` is preserved by the `"SAME"`-padded stride-1
convolution. -/
theorem conv_kernel_shape_preserved (n_blades c_out c_in k : ℕ)
    (hnb : 1 ≤ n_blades) (hk : 1 ≤ k) :
    conv_kernel_shape n_blades [c_out * n_blades, c_in * n_blades, k, k]
      [c_out * n_blades, c_in * n_blades, k, k]
      = some [c_out * n_blades, c_in * n_blades, k, k] := by
  have hco : c_out * n_blades / n_blades = c_out := Nat.mul_div_cancel' ⟨c_out, mul_comm _ _⟩ |>.symm ▸ Nat.mul_div_cancel c_out hnb
  have hci : c_in * n_blades / n_blades = c_in := Nat.mul_div_cancel c_in hnb
  simp only [conv_kernel_shape, reshape_mv_shape, jreshape_shape, List.prod_cons,
    List.prod_nil, hco, hci]
  rw [if_pos (by ring)]
  simp only [Option.some_bind, jtranspose6_shape, jvmap0_shape, lax_conv_same_shape,
    hk, if_true, and_self, true_and, and_true]
  simp only [Option.map_some', Option.some_bind]
  simp only [reshape_back_shape, jreshape_shape, List.prod_cons, List.prod_nil]
  rw [if_pos (by ring)]

/-- Witness for C3 at a concrete input: `n_blades = 4`, `c_out = c_in = 1`,
`k = 3` (the 2D Euclidean end-to-end scenario of the spec). -/
theorem conv_kernel_shape_preserved_witness :
    conv_kernel_shape 4 [4, 4, 3, 3] [4, 4, 3, 3] = some [4, 4, 3, 3] := by
  have h := conv_kernel_shape_preserved 4 1 1 3 (by decide) (by decide)
  simpa using h

/-- A successful `reshape_mv_tensor` adds exactly two axes to the rank. -/
theorem reshape_mv_shape_length (n_blades : ℕ) (s r : List ℕ)
    (h : reshape_mv_shape n_blades s = some r) : r.length = s.length + 2 := by
  rcases s with _ | ⟨A, _ | ⟨B, dims⟩⟩
  · exact absurd h (by simp [reshape_mv_shape])
  · exact absurd h (by simp [reshape_mv_shape])
  · simp only [reshape_mv_shape, jreshape_shape] at h
    split_ifs at h
    injection h with h
    subst h
    simp

/-- `.transpose(0, 2, 1, 3, 4, 5)` raises unless the array has rank 6. -/
theorem jtranspose6_none (s : List ℕ) (h : s.length ≠ 6) :
    jtranspose6_shape s = none := by
  unfold jtranspose6_shape
  rcases s with _ | ⟨a, _ | ⟨b, _ | ⟨c, _ | ⟨d, _ | ⟨e, _ | ⟨f, _ | ⟨g, rest⟩⟩⟩⟩⟩⟩⟩ <;>
    first
    | rfl
    | simp at h

/-- C9: `conv_kernel` is defined only for kernels with exactly two spatial
dimensions.  Whenever either kernel's rank is not 4 (two channel axes plus
two spatial axes), the hard-coded transpose axes `(0, 2, 1, 3, 4, 5)` (or
the `A, B, *dims` unpacking before them) make the call fail instead of
returning a composed kernel. -/
theorem conv_kernel_requires_two_spatial_dims (n_blades : ℕ) (s1 s2 : List ℕ)
    (h : s1.length ≠ 4 ∨ s2.length ≠ 4) :
    conv_kernel_shape n_blades s1 s2 = none := by
  rcases hr1 : reshape_mv_shape n_blades s1 with _ | r1
  · simp [conv_kernel_shape, hr1]
  rcases hr2 : reshape_mv_shape n_blades s2 with _ | r2
  · rcases ht1 : jtranspose6_shape r1 with _ | t1 <;>
      simp [conv_kernel_shape, hr1, hr2, ht1]
  rcases h with h | h
  · have hlen : r1.length ≠ 6 := by
      rw [reshape_mv_shape_length n_blades s1 r1 hr1]
      omega
    simp [conv_kernel_shape, hr1, jtranspose6_none r1 hlen]
  · have hlen : r2.length ≠ 6 := by
      rw [reshape_mv_shape_length n_blades s2 r2 hr2]
      omega
    rcases ht1 : jtranspose6_shape r1 with _ | t1 <;>
      simp [conv_kernel_shape, hr1, hr2, ht1, jtranspose6_none r2 hlen]

/-- Witness for C9 at a concrete input: 3D-spatial kernels of shape
`(4, 4, 3, 3, 3)` (rank 5) are rejected. -/
theorem conv_kernel_requires_two_spatial_dims_witness :
    conv_kernel_shape 4 [4, 4, 3, 3, 3] [4, 4, 3, 3, 3] = none :=
  conv_kernel_requires_two_spatial_dims 4 [4, 4, 3, 3, 3] [4, 4, 3, 3, 3]
    (Or.inl (by decide))

/-- C8 counterexample: the claim "reshape_mv_tensor fails whenever a leading
axis is not a multiple of `n_blades`" is false for tensors with zero
elements.  With `n_blades = 2` and shape `(3, 0)`, the leading axis 3 is
not a multiple of 2, yet `jnp.reshape` to `(1, 2, 0, 2)` succeeds because
both sides have zero elements, so a tensor is returned. -/
theorem reshape_mv_tensor_zero_size_counterexample :
    ¬ (2 ∣ 3) ∧ (reshape_mv_tensor 2 ⟨[3, 0], []⟩).isSome = true :=
  ⟨by decide, rfl⟩

/-- C8 (amended): whenever the tensor has at least one element and a leading
axis (either of the two channel-blade axes) is not a multiple of
`n_blades`, `reshape_mv_tensor` raises (returns no tensor) before anything
else happens, and consequently the whole `conv_kernel` composition, as
called by `ComposedCliffordSteerableKernel.__call__`, fails as well. -/
theorem reshape_mv_tensor_mismatch_fails (n_blades : ℕ) (t : JTensor)
    (A B : ℕ) (dims : List ℕ) (s2 : List ℕ) (hshape : t.shape = A :: B :: dims)
    (hnd : ¬ n_blades ∣ A ∨ ¬ n_blades ∣ B) (hpos : t.shape.prod ≠ 0) :
    reshape_mv_tensor n_blades t = none ∧
      conv_kernel_shape n_blades t.shape s2 = none := by
  rw [hshape] at hpos
  simp only [List.prod_cons] at hpos
  have hA : 0 < A := Nat.pos_of_ne_zero (fun h => hpos (by rw [h, zero_mul]))
  have hBp : 0 < B * dims.prod :=
    Nat.pos_of_ne_zero (fun h => hpos (by rw [h, mul_zero]))
  have hB : 0 < B := Nat.pos_of_ne_zero (fun h => by
    rw [h, Nat.zero_mul] at hBp
    exact absurd hBp (lt_irrefl 0))
  have hp : 0 < dims.prod := Nat.pos_of_ne_zero (fun h => by
    rw [h, Nat.mul_zero] at hBp
    exact absurd hBp (lt_irrefl 0))
  have hcond : A / n_blades * (n_blades * (B / n_blades * (n_blades * dims.prod)))
      ≠ A * (B * dims.prod) := by
    rcases Nat.eq_zero_or_pos n_blades with h0 | hnbpos
    · subst h0
      simp only [Nat.div_zero, Nat.zero_mul, Nat.mul_zero, zero_mul]
      intro h
      exact hpos h.symm
    · have hleA : A / n_blades * n_blades ≤ A := Nat.div_mul_le_self A n_blades
      have hleB : B / n_blades * n_blades ≤ B := Nat.div_mul_le_self B n_blades
      intro h
      have h2 : (A / n_blades * n_blades) * ((B / n_blades * n_blades) * dims.prod)
          = A * (B * dims.prod) := by rw [← h]; ring
      have h3 : (A / n_blades * n_blades) * ((B / n_blades * n_blades) * dims.prod)
          < A * (B * dims.prod) := by
        rcases hnd with hndA | hndB
        · have hmod : A % n_blades ≠ 0 := fun hm => hndA (Nat.dvd_of_mod_eq_zero hm)
          have heq : A / n_blades * n_blades + A % n_blades = A := by
            rw [mul_comm]
            exact Nat.div_add_mod A n_blades
          have hlt : A / n_blades * n_blades < A := by omega
          calc (A / n_blades * n_blades) * ((B / n_blades * n_blades) * dims.prod)
              ≤ (A / n_blades * n_blades) * (B * dims.prod) :=
                Nat.mul_le_mul_left _ (Nat.mul_le_mul_right _ hleB)
            _ < A * (B * dims.prod) := Nat.mul_lt_mul_of_lt_of_le hlt (le_refl _) hBp
        · have hmod : B % n_blades ≠ 0 := fun hm => hndB (Nat.dvd_of_mod_eq_zero hm)
          have heq : B / n_blades * n_blades + B % n_blades = B := by
            rw [mul_comm]
            exact Nat.div_add_mod B n_blades
          have hltB : B / n_blades * n_blades < B := by omega
          have hinner : (B / n_blades * n_blades) * dims.prod < B * dims.prod :=
            Nat.mul_lt_mul_of_lt_of_le hltB (le_refl _) hp
          calc (A / n_blades * n_blades) * ((B / n_blades * n_blades) * dims.prod)
              ≤ A * ((B / n_blades * n_blades) * dims.prod) :=
                Nat.mul_le_mul_right _ hleA
            _ < A * (B * dims.prod) := by
                rw [mul_comm A ((B / n_blades * n_blades) * dims.prod),
                  mul_comm A (B * dims.prod)]
                exact Nat.mul_lt_mul_of_lt_of_le hinner (le_refl _) hA
      omega
  constructor
  · unfold reshape_mv_tensor
    rw [hshape]
    simp only [List.prod_cons]
    rw [if_neg hcond]
  · have hnone : reshape_mv_shape n_blades t.shape = none := by
      unfold reshape_mv_shape jreshape_shape
      rw [hshape]
      simp only [List.prod_cons]
      rw [if_neg hcond]
    simp [conv_kernel_shape, hnone]

/-- Witness for C8 (amended) at a concrete input: `n_blades = 2`, shape
`(3, 2)` with data `[1, 2, 3, 4, 5, 6]`: 3 is not a multiple of 2, the
tensor is nonempty, and the call fails. -/
theorem reshape_mv_tensor_mismatch_fails_witness :
    reshape_mv_tensor 2 ⟨[3, 2], [1, 2, 3, 4, 5, 6]⟩ = none ∧
      conv_kernel_shape 2 (JTensor.shape ⟨[3, 2], [1, 2, 3, 4, 5, 6]⟩) [4, 4] = none :=
  reshape_mv_tensor_mismatch_fails 2 ⟨[3, 2], [1, 2, 3, 4, 5, 6]⟩ 3 2 [] [4, 4]
    rfl (Or.inl (by decide)) (by decide)

/-- The algebra contract consumed by `shell.py` (`CliffordAlgebra` is an
external dependency of the kernel core): a dimension, the grade-1 embedding
of a vector into the `2 ^ dim` blade basis, and the quadratic form on
multivectors. -/
structure AlgebraQ where
  dim : ℕ
  embed_grade1 : (Fin dim → ℝ) → (Fin (2 ^ dim) → ℝ)
  q : (Fin (2 ^ dim) → ℝ) → ℝ

/-- `compute_scalar_shell` from `shell.py`:
`q_v = algebra.q(algebra.embed_grade(v, 1));
sgn = jnp.where(q_v >= 0, 1, -1);
return sgn * jnp.exp(-jnp.abs(q_v) / (2 * sigma**2))`,
one scalar entry of the broadcast result. -/
noncomputable def compute_scalar_shell (alg : AlgebraQ) (v : Fin alg.dim → ℝ)
    (sigma : ℝ) : ℝ :=
  (if 0 ≤ alg.q (alg.embed_grade1 v) then (1 : ℝ) else -1)
    * Real.exp (-|alg.q (alg.embed_grade1 v)| / (2 * sigma ^ 2))

/-- `compute_composed_scalar_shell` from `shell.py`: the same formula with
the width tensor indexed by `(c_out, c_in, blade, blade)`; the reshape of
`q_v` broadcasts one scalar over all entries. -/
noncomputable def compute_composed_scalar_shell (alg : AlgebraQ) (c_out c_in : ℕ)
    (v : Fin alg.dim → ℝ)
    (sigma : Fin c_out → Fin c_in → Fin (2 ^ alg.dim) → Fin (2 ^ alg.dim) → ℝ) :
    Fin c_out → Fin c_in → Fin (2 ^ alg.dim) → Fin (2 ^ alg.dim) → ℝ :=
  fun co ci b1 b2 =>
    (if 0 ≤ alg.q (alg.embed_grade1 v) then (1 : ℝ) else -1)
      * Real.exp (-|alg.q (alg.embed_grade1 v)| / (2 * (sigma co ci b1 b2) ^ 2))

/-- The sign convention written in the spec: `sign(q)` with the tie-break
`sign(0) = +1`. -/
noncomputable def specSignTieBreak (x : ℝ) : ℝ :=
  if 0 ≤ x then 1 else -1

/-- C4: Scalar-shell formula.  `compute_scalar_shell` equals
`sign(q(v)) * exp(-|q(v)| / (2*sigma^2))` with the tie-break
`sign(0) = +1`, and at `v = 0` (where the quadratic form of the grade-1
embedding vanishes) it equals `+1` for every `sigma > 0`. -/
theorem compute_scalar_shell_formula (alg : AlgebraQ) (v : Fin alg.dim → ℝ)
    (sigma : ℝ) :
    compute_scalar_shell alg v sigma
        = specSignTieBreak (alg.q (alg.embed_grade1 v))
          * Real.exp (-|alg.q (alg.embed_grade1 v)| / (2 * sigma ^ 2))
      ∧ (alg.q (alg.embed_grade1 (fun _ => 0)) = 0 → 0 < sigma →
          compute_scalar_shell alg (fun _ => 0) sigma = 1) := by
  refine ⟨rfl, fun hq _ => ?_⟩
  unfold compute_scalar_shell
  rw [hq]
  norm_num

/-- A concrete instance of the algebra contract: the 2D Euclidean algebra
`Cl(2,0)` with 4 blades, vectors embedded at blades 1 and 2, quadratic form
the sum of squared blade coefficients. -/
noncomputable def euclid2 : AlgebraQ where
  dim := 2
  embed_grade1 := fun v b => if b.1 = 1 then v 0 else if b.1 = 2 then v 1 else 0
  q := fun mv => ∑ b, (mv b) ^ 2

/-- Witness for C4 at a concrete input: the 2D Euclidean algebra, `v = 0`,
`sigma = 1`. -/
theorem compute_scalar_shell_formula_witness :
    compute_scalar_shell euclid2 (fun _ => 0) 1 = 1 :=
  (compute_scalar_shell_formula euclid2 (fun _ => 0) 1).2
    (by simp [euclid2]) one_pos

/-- The absolute value of the scalar-shell formula is the exponential
factor alone. -/
theorem abs_shell_formula (x s : ℝ) :
    |(if 0 ≤ x then (1 : ℝ) else -1) * Real.exp (-|x| / (2 * s ^ 2))|
      = Real.exp (-|x| / (2 * s ^ 2)) := by
  rcases le_or_lt 0 x with hx | hx
  · rw [if_pos hx, one_mul, abs_of_pos (Real.exp_pos _)]
  · rw [if_neg (not_le.mpr hx), neg_one_mul, abs_neg, abs_of_pos (Real.exp_pos _)]

/-- C5: Scalar-shell decay.  For a fixed nonzero width, the absolute value
of `compute_scalar_shell` is monotonically non-increasing in `|q(v)|`. -/
theorem compute_scalar_shell_decay (alg : AlgebraQ) (sigma : ℝ)
    (v1 v2 : Fin alg.dim → ℝ) (hs : sigma ≠ 0)
    (h : |alg.q (alg.embed_grade1 v1)| ≤ |alg.q (alg.embed_grade1 v2)|) :
    |compute_scalar_shell alg v2 sigma| ≤ |compute_scalar_shell alg v1 sigma| := by
  unfold compute_scalar_shell
  rw [abs_shell_formula, abs_shell_formula]
  have hpos : (0 : ℝ) < 2 * sigma ^ 2 := by positivity
  apply Real.exp_le_exp.mpr
  rw [neg_div, neg_div, neg_le_neg_iff]
  exact (div_le_div_iff_of_pos_right hpos).mpr h

/-- Witness for C5 at a concrete input: the 2D Euclidean algebra,
`v1 = 0`, `v2 = (1, 1)`, `sigma = 1`. -/
theorem compute_scalar_shell_decay_witness :
    |compute_scalar_shell euclid2 (fun _ => 1) 1|
      ≤ |compute_scalar_shell euclid2 (fun _ => 0) 1| :=
  compute_scalar_shell_decay euclid2 1 (fun _ => 0) (fun _ => 1) one_ne_zero
    (by
      simp only [euclid2]
      rw [show (2 : ℕ) ^ 2 = 4 from rfl]
      rw [Fin.sum_univ_four, Fin.sum_univ_four]
      norm_num)

/-- Shared bounds for one entry of the shell formula with nonzero width:
the value lies in `[-1, 1]`, is never zero, and is positive exactly when
the quadratic form is nonnegative. -/
theorem shell_formula_bounds (x s : ℝ) (hs : s ≠ 0) :
    ((-1 : ℝ) ≤ (if 0 ≤ x then (1 : ℝ) else -1) * Real.exp (-|x| / (2 * s ^ 2))
        ∧ (if 0 ≤ x then (1 : ℝ) else -1) * Real.exp (-|x| / (2 * s ^ 2)) ≤ 1)
      ∧ (if 0 ≤ x then (1 : ℝ) else -1) * Real.exp (-|x| / (2 * s ^ 2)) ≠ 0
      ∧ (0 < (if 0 ≤ x then (1 : ℝ) else -1) * Real.exp (-|x| / (2 * s ^ 2))
          ↔ 0 ≤ x) := by
  have hexp : 0 < Real.exp (-|x| / (2 * s ^ 2)) := Real.exp_pos _
  have hle : Real.exp (-|x| / (2 * s ^ 2)) ≤ 1 := by
    apply Real.exp_le_one_iff.mpr
    apply div_nonpos_of_nonpos_of_nonneg
    · simp [abs_nonneg]
    · positivity
  rcases le_or_lt 0 x with hx | hx
  · rw [if_pos hx, one_mul]
    exact ⟨⟨by linarith, hle⟩, ne_of_gt hexp, ⟨fun _ => hx, fun _ => hexp⟩⟩
  · rw [if_neg (not_le.mpr hx), neg_one_mul]
    refine ⟨⟨by linarith, by linarith⟩, by simp [ne_of_gt hexp], ?_⟩
    constructor
    · intro hcontra
      linarith
    · intro hcontra
      exact absurd hcontra (not_le.mpr hx)

/-- C10: Bounded shell output.  For every input vector and nonzero width,
`compute_scalar_shell` lies in `[-1, 1]`, is never zero, and is positive
exactly when `q(v) >= 0`; the same holds entrywise for
`compute_composed_scalar_shell`. -/
theorem scalar_shell_bounded (alg : AlgebraQ) (v : Fin alg.dim → ℝ) (sigma : ℝ)
    (c_out c_in : ℕ)
    (sigmaT : Fin c_out → Fin c_in → Fin (2 ^ alg.dim) → Fin (2 ^ alg.dim) → ℝ)
    (co : Fin c_out) (ci : Fin c_in) (b1 b2 : Fin (2 ^ alg.dim))
    (hs : sigma ≠ 0) (hsT : sigmaT co ci b1 b2 ≠ 0) :
    (compute_scalar_shell alg v sigma ∈ Set.Icc (-1 : ℝ) 1
      ∧ compute_scalar_shell alg v sigma ≠ 0
      ∧ (0 < compute_scalar_shell alg v sigma ↔ 0 ≤ alg.q (alg.embed_grade1 v)))
    ∧ (compute_composed_scalar_shell alg c_out c_in v sigmaT co ci b1 b2
          ∈ Set.Icc (-1 : ℝ) 1
      ∧ compute_composed_scalar_shell alg c_out c_in v sigmaT co ci b1 b2 ≠ 0
      ∧ (0 < compute_composed_scalar_shell alg c_out c_in v sigmaT co ci b1 b2
          ↔ 0 ≤ alg.q (alg.embed_grade1 v))) := by
  obtain ⟨hIcc1, hne1, hiff1⟩ :=
    shell_formula_bounds (alg.q (alg.embed_grade1 v)) sigma hs
  obtain ⟨hIcc2, hne2, hiff2⟩ :=
    shell_formula_bounds (alg.q (alg.embed_grade1 v)) (sigmaT co ci b1 b2) hsT
  exact ⟨⟨⟨hIcc1.1, hIcc1.2⟩, hne1, hiff1⟩, ⟨⟨hIcc2.1, hIcc2.2⟩, hne2, hiff2⟩⟩

/-- Witness for C10 at a concrete input: the 2D Euclidean algebra,
`v = (1, 1)`, widths 1. -/
theorem scalar_shell_bounded_witness :
    (compute_scalar_shell euclid2 (fun _ => 1) 1 ∈ Set.Icc (-1 : ℝ) 1
      ∧ compute_scalar_shell euclid2 (fun _ => 1) 1 ≠ 0
      ∧ (0 < compute_scalar_shell euclid2 (fun _ => 1) 1
          ↔ 0 ≤ euclid2.q (euclid2.embed_grade1 (fun _ => 1))))
    ∧ (compute_composed_scalar_shell euclid2 1 1 (fun _ => 1) (fun _ _ _ _ => 1)
          0 0 0 0 ∈ Set.Icc (-1 : ℝ) 1
      ∧ compute_composed_scalar_shell euclid2 1 1 (fun _ => 1) (fun _ _ _ _ => 1)
          0 0 0 0 ≠ 0
      ∧ (0 < compute_composed_scalar_shell euclid2 1 1 (fun _ => 1)
            (fun _ _ _ _ => 1) 0 0 0 0
          ↔ 0 ≤ euclid2.q (euclid2.embed_grade1 (fun _ => 1)))) :=
  scalar_shell_bounded euclid2 (fun _ => 1) 1 1 1 (fun _ _ _ _ => 1) 0 0 0 0
    one_ne_zero one_ne_zero

/-- `jnp.repeat(xs, reps, axis=-1)` along a single axis with a per-element
repetition count: element `g` is written `reps[g]` times, in order. -/
def jnp_repeat {α : Type} : List ℕ → List α → List α
  | r :: rs, x :: xs => List.replicate r x ++ jnp_repeat rs xs
  | _, _ => []

/-- The effective widths used by `ScalarShell.__call__` for one
`(c_out, c_in)` channel pair: the raw `kernel_width` parameter entries plus
`0.4`, then `jnp.repeat(_, algebra.subspaces, axis=-1)` to per-blade
resolution. -/
def scalar_shell_widths (subspaces : List ℕ) (raw : List ℝ) : List ℝ :=
  jnp_repeat subspaces (raw.map (fun r => r + 0.4))

/-- The effective widths used by `ComposedScalarShell.__call__` for one
`(c_out, c_in)` channel pair: the raw `(n_subspaces, n_subspaces)` parameter
plus `0.4`, repeated along axis `-2` (rows) and then along axis `-1`
(within each row). -/
def composed_shell_widths (subspaces : List ℕ) (raw : List (List ℝ)) :
    List (List ℝ) :=
  (jnp_repeat subspaces (raw.map (fun row => row.map (fun r => r + 0.4)))).map
    (fun row => jnp_repeat subspaces row)

/-- Every element produced by `jnp_repeat` is one of the input elements. -/
theorem mem_of_mem_jnp_repeat {α : Type} (reps : List ℕ) (xs : List α) (x : α)
    (h : x ∈ jnp_repeat reps xs) : x ∈ xs := by
  induction reps generalizing xs with
  | nil => simp [jnp_repeat] at h
  | cons r rs ih =>
    cases xs with
    | nil => simp [jnp_repeat] at h
    | cons y ys =>
      simp only [jnp_repeat, List.mem_append] at h
      rcases h with h | h
      · rw [List.eq_of_mem_replicate h]
        exact List.mem_cons_self y ys
      · exact List.mem_cons_of_mem _ (ih ys h)

/-- C6 counterexample: the claim "every effective width is strictly greater
than 0.4 for every raw draw in `[0, 0.2)`" fails at the draw `raw = 0`,
which lies in `[0, 0.2)` and yields the effective width exactly `0.4`. -/
theorem shell_width_floor_counterexample :
    (0 : ℝ) ∈ Set.Ico (0 : ℝ) 0.2
      ∧ scalar_shell_widths [1] [0] = [0.4]
      ∧ ¬ (∀ x ∈ scalar_shell_widths [1] [0], 0.4 < x) := by
  refine ⟨by norm_num, ?_, ?_⟩
  · show List.replicate 1 ((0 : ℝ) + 0.4) ++ jnp_repeat [] [] = [0.4]
    norm_num [jnp_repeat]
  · intro hall
    have h04 : (0.4 : ℝ) ∈ scalar_shell_widths [1] [0] := by
      show (0.4 : ℝ) ∈ List.replicate 1 ((0 : ℝ) + 0.4) ++ jnp_repeat [] []
      norm_num [jnp_repeat]
    exact absurd (hall 0.4 h04) (by norm_num)

/-- C6 (amended): for every raw initializer draw in `[0, 0.2)`, every entry
of the effective kernel width used by `ScalarShell` and by
`ComposedScalarShell` is at least `0.4` (with equality exactly at the draw
0), because the width is parameterized as `raw + 0.4`. -/
theorem shell_width_floor (subspaces : List ℕ) (raw : List ℝ)
    (rawC : List (List ℝ))
    (h : ∀ r ∈ raw, 0 ≤ r ∧ r < 0.2)
    (hC : ∀ row ∈ rawC, ∀ r ∈ row, 0 ≤ r ∧ r < 0.2) :
    (∀ x ∈ scalar_shell_widths subspaces raw, 0.4 ≤ x)
      ∧ (∀ row ∈ composed_shell_widths subspaces rawC, ∀ x ∈ row, 0.4 ≤ x) := by
  constructor
  · intro x hx
    have hx' := mem_of_mem_jnp_repeat subspaces _ x hx
    obtain ⟨r, hr, hrx⟩ := List.mem_map.mp hx'
    have := (h r hr).1
    rw [← hrx]
    linarith
  · intro row hrow x hx
    obtain ⟨row', hrow', hrw⟩ := List.mem_map.mp hrow
    have hrow'' := mem_of_mem_jnp_repeat subspaces _ row' hrow'
    obtain ⟨r0, hr0, hr0w⟩ := List.mem_map.mp hrow''
    rw [← hrw] at hx
    have hx' := mem_of_mem_jnp_repeat subspaces _ x hx
    rw [← hr0w] at hx'
    obtain ⟨r, hr, hrx⟩ := List.mem_map.mp hx'
    have := (hC r0 hr0 r hr).1
    rw [← hrx]
    linarith

/-- Witness for C6 (amended) at a concrete input: `subspaces = [1, 2, 1]`,
raw draws `[0.1, 0, 0.15]` and `[[0.1]]`. -/
theorem shell_width_floor_witness :
    (∀ x ∈ scalar_shell_widths [1, 2, 1] [0.1, 0, 0.15], 0.4 ≤ x)
      ∧ (∀ row ∈ composed_shell_widths [1, 2, 1] [[0.1]], ∀ x ∈ row, 0.4 ≤ x) :=
  shell_width_floor [1, 2, 1] [0.1, 0, 0.15] [[0.1]]
    (by
      intro r hr
      simp only [List.mem_cons, List.not_mem_nil, or_false] at hr
      rcases hr with h | h | h <;> subst h <;> norm_num)
    (by
      intro row hrow r hr
      simp only [List.mem_cons, List.not_mem_nil, or_false] at hrow
      subst hrow
      simp only [List.mem_cons, List.not_mem_nil, or_false] at hr
      subst hr
      norm_num)

/-- `jnp_repeat` writes `reps.sum` elements in total. -/
theorem jnp_repeat_length {α : Type} (reps : List ℕ) (xs : List α)
    (hlen : reps.length = xs.length) : (jnp_repeat reps xs).length = reps.sum := by
  induction reps generalizing xs with
  | nil => simp [jnp_repeat]
  | cons r rs ih =>
    cases xs with
    | nil => simp at hlen
    | cons y ys =>
      simp only [jnp_repeat, List.length_append, List.length_replicate,
        List.sum_cons]
      rw [ih ys (by simpa using hlen)]

/-- Positional content of `jnp_repeat`: inside the block of grade `g`
(which starts at offset `(reps.take g).sum` and has `reps[g]` slots), every
position holds element `g` of the input. -/
theorem jnp_repeat_getElem {α : Type} (reps : List ℕ) (xs : List α)
    (hlen : reps.length = xs.length) (g i : ℕ) (hi : i < reps.getD g 0) :
    (jnp_repeat reps xs)[(reps.take g).sum + i]? = xs[g]? := by
  induction reps generalizing xs g with
  | nil => simp at hi
  | cons r rs ih =>
    cases xs with
    | nil => simp at hlen
    | cons y ys =>
      cases g with
      | zero =>
        have hi2 : i < r := by simpa using hi
        simp only [List.take_zero, List.sum_nil, Nat.zero_add, jnp_repeat]
        rw [List.getElem?_append_left (by simpa using hi2)]
        simp [List.getElem?_replicate, hi2]
      | succ g' =>
        simp only [List.take_succ_cons, List.sum_cons, jnp_repeat]
        rw [Nat.add_assoc, List.getElem?_append_right (by simp)]
        simp only [List.length_replicate, Nat.add_sub_cancel_left]
        rw [List.getElem?_cons_succ]
        exact ih ys (by simpa using hlen) g' (by simpa using hi)

/-- A position with a nonempty repetition block names an in-range grade. -/
theorem grade_lt_of_getD (subspaces : List ℕ) (g i : ℕ)
    (hi : i < subspaces.getD g 0) : g < subspaces.length := by
  by_contra hg
  rw [List.getD_eq_default _ _ (le_of_not_lt hg)] at hi
  exact absurd hi (by omega)

/-- C7: Per-grade width broadcast.  `ScalarShell` expands its per-subspace
width list to per-blade resolution by repeating the width of grade `g`
exactly `subspaces[g]` times along the last axis (expanded length
`= sum subspaces = n_blades`, and every position inside the block of grade
`g` holds that grade's single width); `ComposedScalarShell` performs the
analogous repetition along both of its last two axes, producing an
`n_blades × n_blades` table whose `(g1-block, g2-block)` positions all hold
the `(g1, g2)` entry of the per-subspace-pair parameter. -/
theorem per_grade_width_broadcast (subspaces : List ℕ) (raw : List ℝ)
    (rawC : List (List ℝ))
    (hlen : subspaces.length = raw.length)
    (hlenC : subspaces.length = rawC.length)
    (hrows : ∀ row ∈ rawC, row.length = subspaces.length) :
    ((scalar_shell_widths subspaces raw).length = subspaces.sum
      ∧ (∀ g i, i < subspaces.getD g 0 →
          (scalar_shell_widths subspaces raw)[(subspaces.take g).sum + i]?
            = (raw.map (fun r => r + 0.4))[g]?))
    ∧ ((composed_shell_widths subspaces rawC).length = subspaces.sum
      ∧ (∀ row ∈ composed_shell_widths subspaces rawC, row.length = subspaces.sum)
      ∧ (∀ g1 i1 g2 i2, i1 < subspaces.getD g1 0 → i2 < subspaces.getD g2 0 →
          ((composed_shell_widths subspaces rawC)[(subspaces.take g1).sum + i1]?).bind
              (fun row => row[(subspaces.take g2).sum + i2]?)
            = ((rawC.map (fun row => row.map (fun r => r + 0.4)))[g1]?).bind
                (fun row => row[g2]?))) := by
  have hlen1 : subspaces.length = (raw.map (fun r => r + 0.4)).length := by
    simpa using hlen
  have hlenC1 : subspaces.length
      = (rawC.map (fun row => row.map (fun r => r + 0.4))).length := by
    simpa using hlenC
  refine ⟨⟨jnp_repeat_length _ _ hlen1, fun g i hi => jnp_repeat_getElem _ _ hlen1 g i hi⟩,
    ?_, ?_, ?_⟩
  · unfold composed_shell_widths
    rw [List.length_map]
    exact jnp_repeat_length _ _ hlenC1
  · intro row hrow
    unfold composed_shell_widths at hrow
    obtain ⟨row1, hrow1, hroweq⟩ := List.mem_map.mp hrow
    have hmem := mem_of_mem_jnp_repeat _ _ _ hrow1
    obtain ⟨r0, hr0, hr0eq⟩ := List.mem_map.mp hmem
    have hr0len : row1.length = subspaces.length := by
      rw [← hr0eq]
      simpa using hrows r0 hr0
    rw [← hroweq]
    exact jnp_repeat_length _ _ hr0len.symm
  · intro g1 i1 g2 i2 hi1 hi2
    have hg1 : g1 < subspaces.length := grade_lt_of_getD subspaces g1 i1 hi1
    have hg1C : g1 < rawC.length := hlenC ▸ hg1
    unfold composed_shell_widths
    rw [List.getElem?_map, jnp_repeat_getElem _ _ hlenC1 g1 i1 hi1,
      List.getElem?_map, List.getElem?_eq_getElem hg1C]
    simp only [Option.map_some', Option.some_bind]
    have hr0len : subspaces.length = ((rawC[g1]).map (fun r => r + 0.4)).length := by
      simpa using (hrows (rawC[g1]) (rawC.getElem_mem hg1C)).symm
    exact jnp_repeat_getElem _ _ hr0len g2 i2 hi2

/-- Witness for C7 at a concrete input: `subspaces = [1, 2, 1]` (the 2D
Euclidean grade structure), a width list of length 3 and a 3x3 width
table. -/
theorem per_grade_width_broadcast_witness :
    ((scalar_shell_widths [1, 2, 1] [0.1, 0.2, 0.3]).length = [1, 2, 1].sum
      ∧ (∀ g i, i < [1, 2, 1].getD g 0 →
          (scalar_shell_widths [1, 2, 1] [0.1, 0.2, 0.3])[([1, 2, 1].take g).sum + i]?
            = (([0.1, 0.2, 0.3] : List ℝ).map (fun r => r + 0.4))[g]?))
    ∧ ((composed_shell_widths [1, 2, 1] [[1, 2, 3], [4, 5, 6], [7, 8, 9]]).length
          = [1, 2, 1].sum
      ∧ (∀ row ∈ composed_shell_widths [1, 2, 1] [[1, 2, 3], [4, 5, 6], [7, 8, 9]],
          row.length = [1, 2, 1].sum)
      ∧ (∀ g1 i1 g2 i2, i1 < [1, 2, 1].getD g1 0 → i2 < [1, 2, 1].getD g2 0 →
          ((composed_shell_widths [1, 2, 1]
                [[1, 2, 3], [4, 5, 6], [7, 8, 9]])[([1, 2, 1].take g1).sum + i1]?).bind
              (fun row => row[([1, 2, 1].take g2).sum + i2]?)
            = ((([[1, 2, 3], [4, 5, 6], [7, 8, 9]] : List (List ℝ)).map
                  (fun row => row.map (fun r => r + 0.4)))[g1]?).bind
                (fun row => row[g2]?))) :=
  per_grade_width_broadcast [1, 2, 1] [0.1, 0.2, 0.3]
    [[1, 2, 3], [4, 5, 6], [7, 8, 9]] rfl rfl
    (by
      intro row hrow
      simp only [List.mem_cons, List.not_mem_nil, or_false] at hrow
      rcases hrow with h | h | h <;> subst h <;> rfl)

/-- Flat row-major index of the block pair `(m, i)` with inner axis length
`nb`: position `m * nb + i`. -/
theorem finPair_lt {M nb : ℕ} (m : Fin M) (i : Fin nb) : m.1 * nb + i.1 < M * nb := by
  calc m.1 * nb + i.1 < m.1 * nb + nb := by omega
    _ = (m.1 + 1) * nb := by ring
    _ ≤ M * nb := Nat.mul_le_mul_right nb m.2

/-- The flat index of row-major block coordinates `(m, i)`. -/
def finPair {M nb : ℕ} (m : Fin M) (i : Fin nb) : Fin (M * nb) :=
  ⟨m.1 * nb + i.1, finPair_lt m i⟩

/-- Value-level `reshape_mv_tensor` for the rank-6 case of `conv_kernel`:
the row-major reinterpretation of axis `A = M * nb` as `(M, nb)` and axis
`B = N * nb` as `(N, nb)`. -/
def reshape_mv_tensorF {M N nb H W : ℕ}
    (t : Fin (M * nb) → Fin (N * nb) → Fin H → Fin W → ℝ) :
    Fin M → Fin nb → Fin N → Fin nb → Fin H → Fin W → ℝ :=
  fun m i n j => t (finPair m i) (finPair n j)

/-- `.transpose(0, 2, 1, 3, 4, 5)` on a rank-6 array `(M, nb, N, nb, H, W)`:
swap axes 1 and 2. -/
def transpose021345 {M N nb H W : ℕ}
    (t : Fin M → Fin nb → Fin N → Fin nb → Fin H → Fin W → ℝ) :
    Fin M → Fin N → Fin nb → Fin nb → Fin H → Fin W → ℝ :=
  fun m n i j => t m i n j

/-- `.transpose(0, 2, 1, 3, 4, 5)` on the result `(M, N, nb, nb, H, W)` of
the vmapped convolution: swap axes 1 and 2 back. -/
def transpose021345_back {M N nb H W : ℕ}
    (t : Fin M → Fin N → Fin nb → Fin nb → Fin H → Fin W → ℝ) :
    Fin M → Fin nb → Fin N → Fin nb → Fin H → Fin W → ℝ :=
  fun m i n j => t m n i j

/-- Zero extension of an `H × W` array to the whole plane: the value inside
the index box, `0` outside (the `"SAME"` zero padding of `lax.conv`). -/
def zext2 (H W : ℕ) (f : Fin H → Fin W → ℝ) (x y : ℤ) : ℝ :=
  if h : 0 ≤ x ∧ x < (H : ℤ) ∧ 0 ≤ y ∧ y < (W : ℤ) then
    f ⟨x.toNat, by omega⟩ ⟨y.toNat, by omega⟩
  else 0

/-- `jax.lax.conv(lhs, rhs, window_strides=(1,1), padding="SAME")` on a
`(nb, nb, H, W)` input (`NCHW`) and a `(nb, nb, kh, kw)` filter (`OIHW`):
cross-correlation with zero padding `(kh-1)//2` low on each spatial axis
(XLA's `"SAME"` split `pad_total // 2`), output spatial size equal to the
input's.  `out[b, o, x, y] = sum_{i, dx, dy}
padded_lhs[b, i, x + dx - (kh-1)//2, y + dy - (kw-1)//2] * rhs[o, i, dx, dy]`. -/
noncomputable def lax_conv {nb H W kh kw : ℕ}
    (lhs : Fin nb → Fin nb → Fin H → Fin W → ℝ)
    (rhs : Fin nb → Fin nb → Fin kh → Fin kw → ℝ) :
    Fin nb → Fin nb → Fin H → Fin W → ℝ :=
  fun b o x y => ∑ i : Fin nb, ∑ dx : Fin kh, ∑ dy : Fin kw,
    zext2 H W (lhs b i)
        ((x.1 : ℤ) + (dx.1 : ℤ) - (((kh - 1) / 2 : ℕ) : ℤ))
        ((y.1 : ℤ) + (dy.1 : ℤ) - (((kw - 1) / 2 : ℕ) : ℤ))
      * rhs o i dx dy

/-- A nonempty flat index forces the inner axis length to be positive. -/
theorem nb_pos_of_fin {M nb : ℕ} (a : Fin (M * nb)) : 0 < nb := by
  rcases Nat.eq_zero_or_pos nb with h | h
  · subst h
    exact absurd a.2 (by simp)
  · exact h

/-- Value-level `reshape_back` for the rank-6 case: recover the block
decomposition of the flat indices. -/
def reshape_backF {M N nb H W : ℕ}
    (t : Fin M → Fin nb → Fin N → Fin nb → Fin H → Fin W → ℝ) :
    Fin (M * nb) → Fin (N * nb) → Fin H → Fin W → ℝ :=
  fun a b => t ⟨a.1 / nb, Nat.div_lt_of_lt_mul (Nat.mul_comm M nb ▸ a.2)⟩
    ⟨a.1 % nb, Nat.mod_lt _ (nb_pos_of_fin a)⟩
    ⟨b.1 / nb, Nat.div_lt_of_lt_mul (Nat.mul_comm N nb ▸ b.2)⟩
    ⟨b.1 % nb, Nat.mod_lt _ (nb_pos_of_fin b)⟩

/-- Value-level `conv_kernel` (`ckernel.py`), line for line: reshape and
transpose both kernels, vmap over the two leading axes, `lax.conv` per
channel pair, transpose back, reshape back. -/
noncomputable def conv_kernelF {M N nb k : ℕ}
    (k1 k2 : Fin (M * nb) → Fin (N * nb) → Fin k → Fin k → ℝ) :
    Fin (M * nb) → Fin (N * nb) → Fin k → Fin k → ℝ :=
  reshape_backF (transpose021345_back (fun m n =>
    lax_conv (transpose021345 (reshape_mv_tensorF k1) m n)
      (transpose021345 (reshape_mv_tensorF k2) m n)))

/-- Block recovery: the quotient of a flat pair index. -/
theorem finPair_div {M nb : ℕ} (m : Fin M) (i : Fin nb) :
    (finPair m i).1 / nb = m.1 := by
  show (m.1 * nb + i.1) / nb = m.1
  have hnb : 0 < nb := Nat.lt_of_le_of_lt (Nat.zero_le i.1) i.2
  rw [Nat.add_comm, Nat.add_mul_div_right _ _ hnb, Nat.div_eq_of_lt i.2,
    Nat.zero_add]

/-- Block recovery: the remainder of a flat pair index. -/
theorem finPair_mod {M nb : ℕ} (m : Fin M) (i : Fin nb) :
    (finPair m i).1 % nb = i.1 := by
  show (m.1 * nb + i.1) % nb = i.1
  rw [Nat.add_comm, Nat.add_mul_mod_self_right]
  exact Nat.mod_eq_of_lt i.2

/-- `reshape_backF` inverts the flat pair encoding. -/
theorem reshape_backF_finPair {M N nb H W : ℕ}
    (t : Fin M → Fin nb → Fin N → Fin nb → Fin H → Fin W → ℝ)
    (m : Fin M) (a : Fin nb) (n : Fin N) (o : Fin nb) :
    reshape_backF t (finPair m a) (finPair n o) = t m a n o := by
  have key : ∀ (x x2 : Fin M) (y y2 : Fin nb) (z z2 : Fin N) (w w2 : Fin nb),
      x = x2 → y = y2 → z = z2 → w = w2 → t x y z w = t x2 y2 z2 w2 := by
    intro x x2 y y2 z z2 w w2 h1 h2 h3 h4
    subst h1
    subst h2
    subst h3
    subst h4
    rfl
  exact key _ _ _ _ _ _ _ _ (Fin.ext (finPair_div m a)) (Fin.ext (finPair_mod m a))
    (Fin.ext (finPair_div n o)) (Fin.ext (finPair_mod n o))

/-- Membership of an integer point in the `k × k` index box `[0, k)²` of a
spatial kernel. -/
def inGrid (k : ℕ) (z : ℤ × ℤ) : Prop :=
  0 ≤ z.1 ∧ z.1 < (k : ℤ) ∧ 0 ≤ z.2 ∧ z.2 < (k : ℤ)

instance inGrid.instDecidable (k : ℕ) (z : ℤ × ℤ) : Decidable (inGrid k z) := by
  unfold inGrid
  infer_instance

/-- The `k × k` index box as a finite set of integer points. -/
def gridFinset (k : ℕ) : Finset (ℤ × ℤ) :=
  Finset.Icc (0 : ℤ) ((k : ℤ) - 1) ×ˢ Finset.Icc (0 : ℤ) ((k : ℤ) - 1)

theorem mem_gridFinset (k : ℕ) (z : ℤ × ℤ) :
    z ∈ gridFinset k ↔ inGrid k z := by
  simp only [gridFinset, inGrid, Finset.mem_product, Finset.mem_Icc]
  omega

/-- One blade-block of a kernel in flat layout, zero-extended over the whole
plane: `kerBlockZ K m n a i` is the `k × k` slice
`K[m * nb + a, n * nb + i, ·, ·]` as a function on `ℤ × ℤ`, zero outside the
index box. -/
def kerBlockZ {M N nb k : ℕ}
    (K : Fin (M * nb) → Fin (N * nb) → Fin k → Fin k → ℝ)
    (m : Fin M) (n : Fin N) (a i : Fin nb) (z : ℤ × ℤ) : ℝ :=
  zext2 k k (fun x y => K (finPair m a) (finPair n i) x y) z.1 z.2

/-- Inside the index box, the zero-extended block is the kernel value. -/
theorem kerBlockZ_coe {M N nb k : ℕ}
    (K : Fin (M * nb) → Fin (N * nb) → Fin k → Fin k → ℝ)
    (m : Fin M) (n : Fin N) (a i : Fin nb) (x y : Fin k) :
    kerBlockZ K m n a i ((x.1 : ℤ), (y.1 : ℤ))
      = K (finPair m a) (finPair n i) x y := by
  have hbox : 0 ≤ ((x.1 : ℤ)) ∧ ((x.1 : ℤ)) < (k : ℤ)
      ∧ 0 ≤ ((y.1 : ℤ)) ∧ ((y.1 : ℤ)) < (k : ℤ) := by
    refine ⟨by omega, ?_, by omega, ?_⟩ <;> exact_mod_cast Fin.is_lt _
  unfold kerBlockZ zext2
  rw [dif_pos hbox]
  have key : ∀ u u2 v v2 : Fin k, u = u2 → v = v2 →
      K (finPair m a) (finPair n i) u v = K (finPair m a) (finPair n i) u2 v2 := by
    intro u u2 v v2 h1 h2
    subst h1
    subst h2
    rfl
  exact key _ _ _ _ (Fin.ext (by simp)) (Fin.ext (by simp))

/-- Outside the index box, the zero-extended block vanishes. -/
theorem kerBlockZ_of_not_inGrid {M N nb k : ℕ}
    (K : Fin (M * nb) → Fin (N * nb) → Fin k → Fin k → ℝ)
    (m : Fin M) (n : Fin N) (a i : Fin nb) (z : ℤ × ℤ) (hz : ¬ inGrid k z) :
    kerBlockZ K m n a i z = 0 := by
  unfold kerBlockZ zext2
  rw [dif_neg]
  intro h
  exact hz ⟨h.1, h.2.1, h.2.2.1, h.2.2.2⟩

/-- An in-box integer point comes from a pair of `Fin k` indices. -/
theorem exists_fin_of_inGrid (k : ℕ) (z : ℤ × ℤ) (hz : inGrid k z) :
    ∃ x y : Fin k, z = ((x.1 : ℤ), (y.1 : ℤ)) := by
  obtain ⟨h1, h2, h3, h4⟩ := hz
  refine ⟨⟨z.1.toNat, by omega⟩, ⟨z.2.toNat, by omega⟩, ?_⟩
  ext <;> simp <;> omega

/-- A double sum over `Fin k × Fin k` spatial indices equals the sum over
the integer index box. -/
theorem sum_fin_eq_sum_grid {β : Type} [AddCommMonoid β] (k : ℕ)
    (f : ℤ × ℤ → β) :
    (∑ dx : Fin k, ∑ dy : Fin k, f ((dx.1 : ℤ), (dy.1 : ℤ)))
      = ∑ q ∈ gridFinset k, f q := by
  have h1 : (∑ dx : Fin k, ∑ dy : Fin k, f ((dx.1 : ℤ), (dy.1 : ℤ)))
      = ∑ q : Fin k × Fin k, f ((q.1.1 : ℤ), (q.2.1 : ℤ)) :=
    (Fintype.sum_prod_type' (fun dx dy : Fin k => f ((dx.1 : ℤ), (dy.1 : ℤ)))).symm
  have himg : gridFinset k
      = Finset.image (fun q : Fin k × Fin k => ((q.1.1 : ℤ), (q.2.1 : ℤ)))
          Finset.univ := by
    ext z
    simp only [Finset.mem_image, Finset.mem_univ, true_and]
    rw [mem_gridFinset]
    constructor
    · intro hz
      obtain ⟨x, y, rfl⟩ := exists_fin_of_inGrid k z hz
      exact ⟨(x, y), rfl⟩
    · rintro ⟨q, rfl⟩
      refine ⟨by omega, ?_, by omega, ?_⟩
      · show ((q.1.1 : ℤ)) < (k : ℤ)
        exact_mod_cast q.1.2
      · show ((q.2.1 : ℤ)) < (k : ℤ)
        exact_mod_cast q.2.2
  have hinj : ∀ x ∈ (Finset.univ : Finset (Fin k × Fin k)), ∀ y ∈ Finset.univ,
      (((x.1.1 : ℤ), (x.2.1 : ℤ)) : ℤ × ℤ) = ((y.1.1 : ℤ), (y.2.1 : ℤ)) → x = y := by
    intro x _ y _ hxy
    rw [Prod.ext_iff] at hxy
    have hx1 : ((x.1.1 : ℤ)) = (y.1.1 : ℤ) := hxy.1
    have hx2 : ((x.2.1 : ℤ)) = (y.2.1 : ℤ) := hxy.2
    exact Prod.ext (Fin.ext (by exact_mod_cast hx1)) (Fin.ext (by exact_mod_cast hx2))
  rw [h1, himg, Finset.sum_image hinj]

/-- The `"SAME"` padding center offset of a `k × k` window:
`((k-1)//2, (k-1)//2)`. -/
def ctr (k : ℕ) : ℤ × ℤ :=
  ((((k - 1) / 2 : ℕ) : ℤ), (((k - 1) / 2 : ℕ) : ℤ))

/-- Blockwise value of the composed kernel at an in-box point: the
`"SAME"`-padded stride-1 cross-correlation contracts the second blade axis
of both factors, `CK[m,n][a,o](p) = sum_{i, q in box}
k1[m,n][a,i](p + q - ctr) * k2[m,n][o,i](q)`. -/
theorem conv_kernelF_block {M N nb k : ℕ}
    (k1 k2 : Fin (M * nb) → Fin (N * nb) → Fin k → Fin k → ℝ)
    (m : Fin M) (n : Fin N) (a o : Fin nb) (z : ℤ × ℤ) (hz : inGrid k z) :
    kerBlockZ (conv_kernelF k1 k2) m n a o z
      = ∑ i : Fin nb, ∑ q ∈ gridFinset k,
          kerBlockZ k1 m n a i (z + q - ctr k) * kerBlockZ k2 m n o i q := by
  obtain ⟨x, y, rfl⟩ := exists_fin_of_inGrid k z hz
  rw [kerBlockZ_coe]
  unfold conv_kernelF
  rw [reshape_backF_finPair]
  unfold transpose021345_back transpose021345 lax_conv reshape_mv_tensorF
  refine Finset.sum_congr rfl fun i _ => ?_
  rw [← sum_fin_eq_sum_grid k (fun q =>
    kerBlockZ k1 m n a i (((x.1 : ℤ), (y.1 : ℤ)) + q - ctr k)
      * kerBlockZ k2 m n o i q)]
  refine Finset.sum_congr rfl fun dx _ => Finset.sum_congr rfl fun dy _ => ?_
  rw [kerBlockZ_coe]
  have harg : (((x.1 : ℤ), (y.1 : ℤ)) + ((dx.1 : ℤ), (dy.1 : ℤ)) - ctr k)
      = (((x.1 : ℤ) + (dx.1 : ℤ) - (((k - 1) / 2 : ℕ) : ℤ)),
          ((y.1 : ℤ) + (dy.1 : ℤ) - (((k - 1) / 2 : ℕ) : ℤ))) := by
    unfold ctr
    ext <;> simp
  rw [harg]
  rfl

/-- Entry formula of a conjugation `ρ * C * ρᵀ`. -/
theorem conj_entry {nb : ℕ} (ρ C : Matrix (Fin nb) (Fin nb) ℝ) (a i : Fin nb) :
    (ρ * C * ρ.transpose) a i = ∑ a2, ∑ i2, ρ a a2 * C a2 i2 * ρ i i2 := by
  calc (ρ * C * ρ.transpose) a i
      = ∑ i2, (∑ a2, ρ a a2 * C a2 i2) * ρ.transpose i2 i := by
        rw [Matrix.mul_apply]
        exact Finset.sum_congr rfl fun i2 _ => by rw [Matrix.mul_apply]
    _ = ∑ i2, ∑ a2, ρ a a2 * C a2 i2 * ρ i i2 := by
        refine Finset.sum_congr rfl fun i2 _ => ?_
        rw [Finset.sum_mul, Matrix.transpose_apply]
    _ = ∑ a2, ∑ i2, ρ a a2 * C a2 i2 * ρ i i2 := Finset.sum_comm

/-- Contraction of two `ρ`-conjugated arrays over a common second index,
for orthogonal `ρ`: the inner `ρ` factors cancel and one conjugation
remains. -/
theorem rho_conj_product {nb : ℕ} (ρ : Matrix (Fin nb) (Fin nb) ℝ)
    (hρ : ρ * ρ.transpose = 1) (a o : Fin nb)
    (A B : Matrix (Fin nb) (Fin nb) ℝ) :
    ∑ i, (∑ a2, ∑ i2, ρ a a2 * A a2 i2 * ρ i i2)
        * (∑ o2, ∑ i3, ρ o o2 * B o2 i3 * ρ i i3)
      = ∑ a2, ∑ o2, ρ a a2 * (∑ i2, A a2 i2 * B o2 i2) * ρ o o2 := by
  have hρ2 : ρ.transpose * ρ = 1 := Matrix.mul_eq_one_comm.mp hρ
  calc ∑ i, (∑ a2, ∑ i2, ρ a a2 * A a2 i2 * ρ i i2)
          * (∑ o2, ∑ i3, ρ o o2 * B o2 i3 * ρ i i3)
      = ∑ i, (ρ * A * ρ.transpose) a i * (ρ * B * ρ.transpose).transpose i o := by
        refine Finset.sum_congr rfl fun i _ => ?_
        rw [Matrix.transpose_apply, conj_entry, conj_entry]
    _ = ((ρ * A * ρ.transpose) * (ρ * B * ρ.transpose).transpose) a o := by
        rw [Matrix.mul_apply]
    _ = (ρ * (A * B.transpose) * ρ.transpose) a o := by
        have : (ρ * A * ρ.transpose) * (ρ * B * ρ.transpose).transpose
            = ρ * (A * B.transpose) * ρ.transpose := by
          rw [Matrix.transpose_mul, Matrix.transpose_mul, Matrix.transpose_transpose]
          simp only [Matrix.mul_assoc]
          rw [← Matrix.mul_assoc ρ.transpose ρ, hρ2, Matrix.one_mul]
        rw [this]
    _ = ∑ a2, ∑ o2, ρ a a2 * (A * B.transpose) a2 o2 * ρ o o2 :=
        conj_entry ρ (A * B.transpose) a o
    _ = ∑ a2, ∑ o2, ρ a a2 * (∑ i2, A a2 i2 * B o2 i2) * ρ o o2 := by
        refine Finset.sum_congr rfl fun a2 _ => Finset.sum_congr rfl fun o2 _ => ?_
        rw [Matrix.mul_apply]
        simp [Matrix.transpose_apply]

/-- Modelled from the spec: the weighted Cayley contraction (§4.1;
`modules/core/cayley.py` is not among the provided sources).  Each entry of
the algebra's structure-constant tensor is scaled by its learned per-path
weight; the unweighted case is the constant weight 1. -/
def weighted_cayley (nb : ℕ) (cayley w : Fin nb → Fin nb → Fin nb → ℝ) :
    Fin nb → Fin nb → Fin nb → ℝ :=
  fun i j l => w i j l * cayley i j l

/-- Modelled from the spec: the geometric product encoded by a
structure-constant tensor `C` (§3, Cayley table):
`(x * y)[l] = sum_{i,j} C[i,j,l] * x[i] * y[j]`. -/
def geometric_product (nb : ℕ) (C : Fin nb → Fin nb → Fin nb → ℝ)
    (x y : Fin nb → ℝ) : Fin nb → ℝ :=
  fun l => ∑ i, ∑ j, C i j l * x i * y j

/-- Modelled from the spec: the steerable kernel head (§4.4;
`modules/conv/kernel.py` is not among the provided sources): contracting
the kernel-network output `f` through the structure constants yields the
matrix that multiplies an input multivector by `f` under the (weighted)
geometric product: `K[l,j] = sum_i C[i,j,l] * f[i]`. -/
def steerable_kernel_head (nb : ℕ) (C : Fin nb → Fin nb → Fin nb → ℝ)
    (f : Fin nb → ℝ) : Matrix (Fin nb) (Fin nb) ℝ :=
  Matrix.of fun l j => ∑ i, C i j l * f i

/-- The kernel head matrix acts as the geometric product with `f`. -/
theorem steerable_kernel_head_mulVec (nb : ℕ)
    (C : Fin nb → Fin nb → Fin nb → ℝ) (f v : Fin nb → ℝ) :
    (steerable_kernel_head nb C f).mulVec v = geometric_product nb C f v := by
  funext l
  show ∑ j, (∑ i, C i j l * f i) * v j = ∑ i, ∑ j, C i j l * f i * v j
  rw [Finset.sum_comm]
  refine Finset.sum_congr rfl fun j _ => ?_
  rw [Finset.sum_mul]

/-- Equivariance of a flat-layout kernel under a spatial transformation `g`
and a blade representation `ρ`: every `(m, n)` channel block, viewed as a
zero-extended matrix-valued function on the plane, transforms by the
conjugation `K(g z) = ρ ⬝ K(z) ⬝ ρᵀ` entrywise. -/
def BladeEquivariant {M N nb k : ℕ} (g : (ℤ × ℤ) ≃ (ℤ × ℤ))
    (ρ : Matrix (Fin nb) (Fin nb) ℝ)
    (K : Fin (M * nb) → Fin (N * nb) → Fin k → Fin k → ℝ) : Prop :=
  ∀ (m : Fin M) (n : Fin N) (a i : Fin nb) (z : ℤ × ℤ),
    kerBlockZ K m n a i (g z)
      = ∑ a2, ∑ i2, ρ a a2 * kerBlockZ K m n a2 i2 z * ρ i i2

/-- Reindexing a sum over the index box along a box-preserving bijection of
the plane. -/
theorem sum_grid_reindex {β : Type} [AddCommMonoid β] (k : ℕ)
    (g : (ℤ × ℤ) ≃ (ℤ × ℤ)) (hgrid : ∀ z, inGrid k z ↔ inGrid k (g z))
    (f : ℤ × ℤ → β) :
    ∑ q ∈ gridFinset k, f (g q) = ∑ q ∈ gridFinset k, f q := by
  refine Finset.sum_nbij' g g.symm ?_ ?_ ?_ ?_ ?_
  · intro q hq
    rw [mem_gridFinset] at hq ⊢
    exact (hgrid q).mp hq
  · intro q hq
    rw [mem_gridFinset] at hq ⊢
    apply (hgrid (g.symm q)).mpr
    rw [Equiv.apply_symm_apply]
    exact hq
  · intro q _
    exact g.symm_apply_apply q
  · intro q _
    exact g.apply_symm_apply q
  · intro q _
    rfl

/-- C1: Equivariance of the steerable kernel and its composition.
Part one (modelled from the spec, §4.1/§4.4): for any automorphism `ρm` of
the (weighted or unweighted) geometric product and any kernel network `F`
that intertwines the spatial action `g` with `ρm`, the kernel obtained by
contracting `F` through the weighted structure constants transforms
consistently: `K(g p) = ρm ∘ K(p) ∘ ρm⁻¹` as an operator on multivectors.
Part two (value-level `conv_kernel` from `ckernel.py`): if two kernels of
spatial size `k` are blade-equivariant under a spatial transformation `g`
(affine, fixing the `"SAME"` center, preserving the index box) and an
orthogonal blade representation `ρ`, then the kernel composed by
`conv_kernel` is blade-equivariant in the same sense. -/
theorem steerable_kernel_equivariance
    (nb : ℕ) (cayley w : Fin nb → Fin nb → Fin nb → ℝ)
    (ρm ρminv : Matrix (Fin nb) (Fin nb) ℝ)
    (F : ℤ × ℤ → Fin nb → ℝ)
    (g : (ℤ × ℤ) ≃ (ℤ × ℤ))
    (M N k : ℕ)
    (k1 k2 : Fin (M * nb) → Fin (N * nb) → Fin k → Fin k → ℝ)
    (ρ : Matrix (Fin nb) (Fin nb) ℝ)
    (hauto : ∀ x y,
      ρm.mulVec (geometric_product nb (weighted_cayley nb cayley w) x y)
        = geometric_product nb (weighted_cayley nb cayley w)
            (ρm.mulVec x) (ρm.mulVec y))
    (hinv : ∀ u, ρm.mulVec (ρminv.mulVec u) = u)
    (hF : ∀ p, F (g p) = ρm.mulVec (F p))
    (hρ : ρ * ρ.transpose = 1)
    (haff : ∀ u v z : ℤ × ℤ, g u + g v - g z = g (u + v - z))
    (hc : g (ctr k) = ctr k)
    (hgrid : ∀ z, inGrid k z ↔ inGrid k (g z))
    (hK1 : BladeEquivariant g ρ k1)
    (hK2 : BladeEquivariant g ρ k2) :
    (∀ (p : ℤ × ℤ) (v : Fin nb → ℝ),
        (steerable_kernel_head nb (weighted_cayley nb cayley w)
            (F (g p))).mulVec v
          = ρm.mulVec ((steerable_kernel_head nb (weighted_cayley nb cayley w)
              (F p)).mulVec (ρminv.mulVec v)))
    ∧ BladeEquivariant g ρ (conv_kernelF k1 k2) := by
  constructor
  · intro p v
    rw [steerable_kernel_head_mulVec, steerable_kernel_head_mulVec, hF p]
    calc geometric_product nb (weighted_cayley nb cayley w) (ρm.mulVec (F p)) v
        = geometric_product nb (weighted_cayley nb cayley w) (ρm.mulVec (F p))
            (ρm.mulVec (ρminv.mulVec v)) := by rw [hinv v]
      _ = ρm.mulVec (geometric_product nb (weighted_cayley nb cayley w) (F p)
            (ρminv.mulVec v)) := (hauto _ _).symm
  · intro m n a o z
    by_cases hz : inGrid k z
    · have hgz : inGrid k (g z) := (hgrid z).mp hz
      rw [conv_kernelF_block k1 k2 m n a o (g z) hgz]
      have hRHS : ∀ a2 i2 : Fin nb, kerBlockZ (conv_kernelF k1 k2) m n a2 i2 z
          = ∑ i : Fin nb, ∑ q ∈ gridFinset k,
              kerBlockZ k1 m n a2 i (z + q - ctr k) * kerBlockZ k2 m n i2 i q :=
        fun a2 i2 => conv_kernelF_block k1 k2 m n a2 i2 z hz
      calc ∑ i : Fin nb, ∑ q ∈ gridFinset k,
              kerBlockZ k1 m n a i (g z + q - ctr k) * kerBlockZ k2 m n o i q
          = ∑ q ∈ gridFinset k, ∑ i : Fin nb,
              kerBlockZ k1 m n a i (g z + q - ctr k) * kerBlockZ k2 m n o i q :=
            Finset.sum_comm
        _ = ∑ q ∈ gridFinset k, ∑ i : Fin nb,
              kerBlockZ k1 m n a i (g z + g q - ctr k)
                * kerBlockZ k2 m n o i (g q) :=
            (sum_grid_reindex k g hgrid fun q => ∑ i : Fin nb,
              kerBlockZ k1 m n a i (g z + q - ctr k)
                * kerBlockZ k2 m n o i q).symm
        _ = ∑ q ∈ gridFinset k, ∑ a2, ∑ o2, ρ a a2
              * (∑ i2, kerBlockZ k1 m n a2 i2 (z + q - ctr k)
                  * kerBlockZ k2 m n o2 i2 q) * ρ o o2 := by
            refine Finset.sum_congr rfl fun q _ => ?_
            have harg : g z + g q - ctr k = g (z + q - ctr k) := by
              have h1 := haff z q (ctr k)
              rw [hc] at h1
              exact h1
            rw [harg]
            calc ∑ i : Fin nb, kerBlockZ k1 m n a i (g (z + q - ctr k))
                    * kerBlockZ k2 m n o i (g q)
                = ∑ i : Fin nb,
                    (∑ a2, ∑ i2, ρ a a2
                      * kerBlockZ k1 m n a2 i2 (z + q - ctr k) * ρ i i2)
                    * (∑ o2, ∑ i3, ρ o o2
                      * kerBlockZ k2 m n o2 i3 q * ρ i i3) := by
                  refine Finset.sum_congr rfl fun i _ => ?_
                  rw [hK1 m n a i (z + q - ctr k), hK2 m n o i q]
              _ = ∑ a2, ∑ o2, ρ a a2
                    * (∑ i2, kerBlockZ k1 m n a2 i2 (z + q - ctr k)
                        * kerBlockZ k2 m n o2 i2 q) * ρ o o2 :=
                  rho_conj_product ρ hρ a o
                    (fun a2 i2 => kerBlockZ k1 m n a2 i2 (z + q - ctr k))
                    (fun o2 i3 => kerBlockZ k2 m n o2 i3 q)
        _ = ∑ a2, ∑ o2, ρ a a2
              * (∑ q ∈ gridFinset k, ∑ i2,
                  kerBlockZ k1 m n a2 i2 (z + q - ctr k)
                    * kerBlockZ k2 m n o2 i2 q) * ρ o o2 := by
            rw [Finset.sum_comm]
            refine Finset.sum_congr rfl fun a2 _ => ?_
            rw [Finset.sum_comm]
            refine Finset.sum_congr rfl fun o2 _ => ?_
            rw [Finset.mul_sum, Finset.sum_mul]
        _ = ∑ a2, ∑ o2, ρ a a2
              * kerBlockZ (conv_kernelF k1 k2) m n a2 o2 z * ρ o o2 := by
            refine Finset.sum_congr rfl fun a2 _ =>
              Finset.sum_congr rfl fun o2 _ => ?_
            rw [hRHS a2 o2]
            have hswap : (∑ q ∈ gridFinset k, ∑ i2 : Fin nb,
                kerBlockZ k1 m n a2 i2 (z + q - ctr k)
                  * kerBlockZ k2 m n o2 i2 q)
                = ∑ i : Fin nb, ∑ q ∈ gridFinset k,
                    kerBlockZ k1 m n a2 i (z + q - ctr k)
                      * kerBlockZ k2 m n o2 i q := Finset.sum_comm
            rw [hswap]
    · have hgz : ¬ inGrid k (g z) := fun h => hz ((hgrid z).mpr h)
      rw [kerBlockZ_of_not_inGrid _ _ _ _ _ _ hgz]
      symm
      refine Finset.sum_eq_zero fun a2 _ => Finset.sum_eq_zero fun i2 _ => ?_
      rw [kerBlockZ_of_not_inGrid _ _ _ _ _ _ hz]
      ring

/-- The trivial blade representation on one blade is an equivariance
witness for any constant kernel under the identity spatial action. -/
theorem bladeEquivariant_one_const :
    BladeEquivariant (M := 1) (N := 1) (k := 1) (Equiv.refl (ℤ × ℤ))
      (1 : Matrix (Fin 1) (Fin 1) ℝ) (fun _ _ _ _ => 1) := by
  intro m n a i z
  obtain rfl : a = 0 := Subsingleton.elim a 0
  obtain rfl : i = 0 := Subsingleton.elim i 0
  simp [Matrix.one_apply]

/-- Witness for C1 at a concrete instantiation: one blade, all-ones Cayley
table and weights, identity automorphism and identity spatial action,
constant kernel network and constant 1x1 kernels. -/
theorem steerable_kernel_equivariance_witness :
    (∀ (p : ℤ × ℤ) (v : Fin 1 → ℝ),
        (steerable_kernel_head 1
            (weighted_cayley 1 (fun _ _ _ => 1) (fun _ _ _ => 1))
            ((fun _ _ => 1 : ℤ × ℤ → Fin 1 → ℝ) ((Equiv.refl (ℤ × ℤ)) p))).mulVec v
          = (1 : Matrix (Fin 1) (Fin 1) ℝ).mulVec
              ((steerable_kernel_head 1
                  (weighted_cayley 1 (fun _ _ _ => 1) (fun _ _ _ => 1))
                  ((fun _ _ => 1 : ℤ × ℤ → Fin 1 → ℝ) p)).mulVec
                ((1 : Matrix (Fin 1) (Fin 1) ℝ).mulVec v)))
    ∧ BladeEquivariant (M := 1) (N := 1) (k := 1) (Equiv.refl (ℤ × ℤ))
        (1 : Matrix (Fin 1) (Fin 1) ℝ)
        (conv_kernelF (fun _ _ _ _ => 1) (fun _ _ _ _ => 1)) :=
  steerable_kernel_equivariance 1 (fun _ _ _ => 1) (fun _ _ _ => 1) 1 1
    (fun _ _ => 1) (Equiv.refl (ℤ × ℤ)) 1 1 1
    (fun _ _ _ _ => 1) (fun _ _ _ _ => 1) 1
    (by intro x y; simp [Matrix.one_mulVec])
    (by intro u; simp [Matrix.one_mulVec])
    (by intro p; simp [Matrix.one_mulVec])
    (by simp)
    (fun u v z => rfl)
    rfl
    (fun z => Iff.rfl)
    bladeEquivariant_one_const
    bladeEquivariant_one_const
